import Mathlib

/-!
# Concurrent web crawler (`web_crawler_concurrency/main.go`)

A shallow embedding of the crawler of `main.go` and the proofs of its
specified properties.

* `CrawlerMap`, `CrawlerMap.Set`, `CrawlerMap.Get`: the mutex-guarded registry.
* `Fetcher`, `fakeFetcher`, `fetcher`: the fetch interface and the canned one.
* `Crawl`: the body of `Crawl`, by state passing over a `World` (registry,
  `WaitGroup` counter, log of observable effects); a `go Crawl(...)` is run at
  the point where it is started.
* `taskStep`, `step`, `run`: the interleaving semantics of the same body, one
  goroutine taking one step at a time under an arbitrary scheduler.
-/

namespace WebCrawler

/-! ## Fetcher -/

/-- The interface `Fetcher` (lines 8-12): `Fetch(url)` gives a body and the
urls found on the page, or an error. -/
abbrev Fetcher := String → Except String (String × List String)

/-- The struct `fakeResult` (lines 75-78). -/
structure fakeResult where
  body : String
  urls : List String
deriving DecidableEq

/-- The type `fakeFetcher` (line 73), a Go map from url to result, kept as an
association list with distinct keys. -/
abbrev fakeFetcher := List (String × fakeResult)

/-- The method `fakeFetcher.Fetch` (lines 80-85). -/
def fakeFetcher.Fetch (f : fakeFetcher) : Fetcher := fun url =>
  match f.lookup url with
  | some res => Except.ok (res.body, res.urls)
  | none => Except.error ("not found: " ++ url)

/-- The populated `fetcher` (lines 88-119). -/
def fetcher : fakeFetcher :=
  [ ("https://golang.org/",
      ⟨"The Go Programming Language",
       ["https://golang.org/pkg/", "https://golang.org/cmd/"]⟩),
    ("https://golang.org/pkg/",
      ⟨"Packages",
       ["https://golang.org/", "https://golang.org/cmd/",
        "https://golang.org/pkg/fmt/", "https://golang.org/pkg/os/"]⟩),
    ("https://golang.org/pkg/fmt/",
      ⟨"Package fmt", ["https://golang.org/", "https://golang.org/pkg/"]⟩),
    ("https://golang.org/pkg/os/",
      ⟨"Package os", ["https://golang.org/", "https://golang.org/pkg/"]⟩) ]

/-! ## Registry -/

/-- The struct `CrawlerMap` (lines 14-17). The Go map `crawled` is an
association list with distinct keys; the mutex only makes each `Set` and `Get`
atomic, which a single function application is. The map is the initialised
one that `main` builds with `make`. -/
structure CrawlerMap where
  crawled : List (String × String)
deriving DecidableEq

/-- The method `CrawlerMap.Set` (lines 19-23): `m.crawled[key] = value`. -/
def CrawlerMap.Set (m : CrawlerMap) (key value : String) : CrawlerMap :=
  { crawled := (key, value) :: m.crawled.filter (fun p => p.1 != key) }

/-- The method `CrawlerMap.Get` (lines 25-31): `val, ok := m.crawled[key]`; a
missing key gives the zero value of `string`. -/
def CrawlerMap.Get (m : CrawlerMap) (key : String) : String × Bool :=
  match m.crawled.lookup key with
  | some val => (val, true)
  | none => ("", false)

/-- The registry of `main` (lines 64-66): `make(map[string]string)`. -/
def CrawlerMap.empty : CrawlerMap := { crawled := [] }

/-! ## Observable effects -/

/-- What one can observe of a run: an invocation of `Crawl` with its
arguments, a call of `fetcher.Fetch`, the two print statements, and the calls
on the `WaitGroup`. -/
inductive Event where
  /-- An invocation of `Crawl(url, depth, ...)` (line 33). -/
  | call (url : String) (depth : Int)
  /-- The call `fetcher.Fetch(url)` (line 46). -/
  | fetch (url : String)
  /-- The statement `fmt.Println(err)` (line 49). -/
  | println (err : String)
  /-- The statement `fmt.Printf("found: %s %q\n", url, body)` (line 53). -/
  | found (url body : String)
  /-- The call `wg.Add(delta)` (line 56). -/
  | add (delta : Int)
  /-- The deferred call `wg.Done()` (line 34). -/
  | done
deriving DecidableEq

/-- Whether the event is an invocation of `Crawl`. -/
def Event.isCall : Event → Bool
  | .call _ _ => true
  | _ => false

/-- Whether the event is a call of `Fetch`. -/
def Event.isFetch : Event → Bool
  | .fetch _ => true
  | _ => false

/-- Whether the event is a result given to the sink (the `found` line). -/
def Event.isFound : Event → Bool
  | .found _ _ => true
  | _ => false

/-- Whether the event is a call of `wg.Done`. -/
def Event.isDone : Event → Bool
  | .done => true
  | _ => false

/-- What the event adds to the counter of the `WaitGroup`: `Add(delta)` adds
`delta`, `Done()` is `Add(-1)`. -/
def Event.delta : Event → Int
  | .add d => d
  | .done => -1
  | _ => 0

/-- The change of the `WaitGroup` counter over a list of events. -/
def wgDelta (l : List Event) : Int := (l.map Event.delta).sum

/-! ## `Crawl` by state passing -/

/-- The state the tasks share: the registry `cm`, the counter of the
`sync.WaitGroup` `wg`, and the log of effects so far. Go panics in `Add` when
the counter becomes negative; the counter is kept as an integer so that this
state shows as `wg < 0`. -/
structure World where
  cm : CrawlerMap
  wg : Int
  log : List Event
deriving DecidableEq

/-- Appends an effect to the log. -/
def World.emit (w : World) (e : Event) : World :=
  { w with log := w.log ++ [e] }

/-- The call `wg.Add(delta)`. -/
def World.Add (w : World) (delta : Int) : World :=
  { w with wg := w.wg + delta, log := w.log ++ [Event.add delta] }

/-- The call `wg.Done()`, which decrements the counter by one. -/
def World.Done (w : World) : World :=
  { w with wg := w.wg - 1, log := w.log ++ [Event.done] }

/-- The function `Crawl` (lines 33-59). `defer wg.Done()` runs on every
return. A task started by `go Crawl(u, depth-1, ...)` runs to its end where
it is started (one of the interleavings; `step` below has them all). The Go
`int` depth is an integer here: `depth-1` is only computed when `depth > 0`,
so it never wraps around. -/
def Crawl (url : String) (depth : Int) (fetcher : Fetcher) (w : World) : World :=
  let w := w.emit (Event.call url depth)
  if depth ≤ 0 then
    w.Done
  else
    let alreadyCrawled := (w.cm.Get url).2
    if alreadyCrawled then
      w.Done
    else
      let w := w.emit (Event.fetch url)
      match fetcher url with
      | Except.error err =>
        (w.emit (Event.println err)).Done
      | Except.ok (body, urls) =>
        let w := w.emit (Event.found url body)
        let w := urls.foldl (fun w u => Crawl u (depth - 1) fetcher (w.Add 1)) w
        w.Done
termination_by depth.toNat
decreasing_by omega

/-- The world in which `main` calls `Crawl`: a fresh `WaitGroup` (line 62, no
`Add` before the call of line 68) and an empty registry (lines 64-66). -/
def mainWorld : World := { cm := CrawlerMap.empty, wg := 0, log := [] }

/-- The function `main` up to `wg.Wait()` (lines 61-68). -/
def main : World := Crawl "https://golang.org/" 4 fetcher.Fetch mainWorld

/-! ## The effects of a whole traversal -/

/-- The effects of an invocation of `Crawl` after its `call` event, with the
effects of all the tasks it starts, by recursion on the depth budget that is
left (`0` stands for every `depth <= 0`). -/
def crawlRest (fetcher : Fetcher) (cm : CrawlerMap) : Nat → String → List Event
  | 0, _ => [Event.done]
  | n + 1, url =>
    if (cm.Get url).2 then [Event.done]
    else
      match fetcher url with
      | Except.error err => [Event.fetch url, Event.println err, Event.done]
      | Except.ok (body, urls) =>
        Event.fetch url :: Event.found url body ::
          (urls.flatMap (fun u =>
              Event.add 1 :: Event.call u (n : Int) :: crawlRest fetcher cm n u)
            ++ [Event.done])

/-- The effects of `Crawl(url, depth, ...)` and of all the tasks it starts
(`Crawl_eq` shows that this is the log `Crawl` appends). -/
def crawlLog (fetcher : Fetcher) (cm : CrawlerMap) (url : String) (depth : Int) :
    List Event :=
  Event.call url depth :: crawlRest fetcher cm depth.toNat url

/-! ## Interleaving semantics -/

/-- A task that has not returned: at the entry of `Crawl(url, depth, ...)`
(lines 33-34, `Done` deferred), or in the loop of lines 55-58 with the urls
still to range over. -/
inductive Task where
  | entry (url : String) (depth : Int)
  | range (urls : List String) (depth : Int)
deriving DecidableEq

/-- What one step of a task does: the effects it has, the task it goes on as
(`none` when it returns) and the tasks it starts. -/
structure Effect where
  events : List Event
  cont : Option Task
  spawned : List Task
deriving DecidableEq

/-- One step of a task. From the entry the task runs lines 36-53 (one read of
the registry, nothing written) and either returns, which runs the deferred
`wg.Done()`, or enters the loop. In the loop one step is one iteration,
`wg.Add(1)` and `go Crawl(u, depth-1, ...)`; after the last one the task
returns and runs `wg.Done()`. -/
def taskStep (fetcher : Fetcher) (cm : CrawlerMap) : Task → Effect
  | Task.entry url depth =>
    if depth ≤ 0 then
      ⟨[Event.call url depth, Event.done], none, []⟩
    else if (cm.Get url).2 then
      ⟨[Event.call url depth, Event.done], none, []⟩
    else
      match fetcher url with
      | Except.error err =>
        ⟨[Event.call url depth, Event.fetch url, Event.println err, Event.done], none, []⟩
      | Except.ok (body, urls) =>
        ⟨[Event.call url depth, Event.fetch url, Event.found url body],
          some (Task.range urls depth), []⟩
  | Task.range [] _ => ⟨[Event.done], none, []⟩
  | Task.range (u :: us) depth =>
    ⟨[Event.add 1], some (Task.range us depth), [Task.entry u (depth - 1)]⟩

/-- The state of a traversal: the registry, the counter of the `WaitGroup`,
the call of `Crawl` that the caller made itself (`fg`, the call of line 68 for
`main`; `none` once it has returned, so that the caller is at `wg.Wait()`),
the goroutines that were started and have not returned, and the log. -/
structure State where
  cm : CrawlerMap
  wg : Int
  fg : Option Task
  pool : List Task
  log : List Event
deriving DecidableEq

/-- One step of the traversal: the scheduler runs the caller (`none`) or the
goroutine at index `i` of the pool (`some i`); the step is `none` when there
is no such task. No step touches the registry: `Crawl` never calls `Set`. -/
def step (fetcher : Fetcher) (s : State) : Option Nat → Option State
  | none =>
    match s.fg with
    | none => none
    | some t =>
      let r := taskStep fetcher s.cm t
      some { cm := s.cm, wg := s.wg + wgDelta r.events, fg := r.cont,
             pool := s.pool ++ r.spawned, log := s.log ++ r.events }
  | some i =>
    match s.pool[i]? with
    | none => none
    | some t =>
      let r := taskStep fetcher s.cm t
      some { cm := s.cm, wg := s.wg + wgDelta r.events, fg := s.fg,
             pool := s.pool.eraseIdx i ++ (r.cont.toList ++ r.spawned),
             log := s.log ++ r.events }

/-- The steps of a schedule, one after the other. -/
def run (fetcher : Fetcher) (s : State) : List (Option Nat) → Option State
  | [] => some s
  | c :: cs => (step fetcher s c).bind (fun s₁ => run fetcher s₁ cs)

/-- The state in which the caller calls `Crawl(url, depth, fetcher, cm, wg)`
with the counter of `wg` at `wg`. -/
def State.init (cm : CrawlerMap) (wg : Int) (url : String) (depth : Int) : State :=
  { cm := cm, wg := wg, fg := some (Task.entry url depth), pool := [], log := [] }

/-- The state in which `main` calls `Crawl` (line 68): fresh `WaitGroup`,
empty registry. -/
def mainState : State := State.init CrawlerMap.empty 0 "https://golang.org/" 4

/-- The tasks that have not returned. -/
def State.live (s : State) : List Task := s.fg.toList ++ s.pool

/-- The condition under which `wg.Wait()` of line 69 returns: the caller has
returned from its own call of `Crawl` and the counter is zero. -/
def State.waitReturns (s : State) : Bool := s.fg.isNone && decide (s.wg = 0)

/-- The effects still to come from a task and from the tasks it will start. -/
def Task.rest (fetcher : Fetcher) (cm : CrawlerMap) : Task → List Event
  | Task.entry url depth => crawlLog fetcher cm url depth
  | Task.range urls depth =>
    urls.flatMap (fun u => Event.add 1 :: crawlLog fetcher cm u (depth - 1))
      ++ [Event.done]

/-- The effects still to come in a state. -/
def State.pending (fetcher : Fetcher) (s : State) : List Event :=
  s.live.flatMap (Task.rest fetcher s.cm)

/-- The fetcher of the scenario `A -> [B, C]`, `B -> [A]`, `C -> []`, with the
three bodies left open. -/
def abcFetcher (a b c : String) : fakeFetcher :=
  [("A", ⟨a, ["B", "C"]⟩), ("B", ⟨b, ["A"]⟩), ("C", ⟨c, []⟩)]

/-- A path of `k` links from `root` to `id` that the traversal can follow:
every node before `id` is fetched with success and lists the next one. -/
inductive Path (fetcher : Fetcher) (root : String) : Nat → String → Prop where
  | here : Path fetcher root 0 root
  | link {k : Nat} {v id body : String} {urls : List String} :
      Path fetcher root k v → fetcher v = Except.ok (body, urls) → id ∈ urls →
      Path fetcher root (k + 1) id

/-! ## Theorems -/

theorem wgDelta_append (l₁ l₂ : List Event) :
    wgDelta (l₁ ++ l₂) = wgDelta l₁ + wgDelta l₂ := by
  simp [wgDelta]

theorem wgDelta_cons (e : Event) (l : List Event) :
    wgDelta (e :: l) = e.delta + wgDelta l := by
  simp [wgDelta]

theorem wgDelta_nil : wgDelta [] = 0 := rfl

/-- The loop of lines 55-58, given what each started task does. -/
theorem foldl_spawn (fetcher : Fetcher) (d : Int)
    (ih : ∀ (u : String) (w : World), Crawl u d fetcher w =
      { cm := w.cm, wg := w.wg + wgDelta (crawlLog fetcher w.cm u d),
        log := w.log ++ crawlLog fetcher w.cm u d })
    (urls : List String) (w : World) :
    urls.foldl (fun w u => Crawl u d fetcher (w.Add 1)) w =
      { cm := w.cm,
        wg := w.wg + wgDelta (urls.flatMap (fun u => Event.add 1 :: crawlLog fetcher w.cm u d)),
        log := w.log ++ urls.flatMap (fun u => Event.add 1 :: crawlLog fetcher w.cm u d) } := by
  induction urls generalizing w with
  | nil => simp [wgDelta]
  | cons u us ihl =>
    rw [List.foldl_cons, ih, ihl]
    simp [World.Add, wgDelta_append, wgDelta_cons, Event.delta]
    ring

/-- The state-passing `Crawl` leaves the registry as it is, adds the balance
of its `Add` and `Done` calls to the counter and appends `crawlLog`. -/
theorem Crawl_eq (fetcher : Fetcher) (url : String) (depth : Int) (w : World) :
    Crawl url depth fetcher w =
      { cm := w.cm, wg := w.wg + wgDelta (crawlLog fetcher w.cm url depth),
        log := w.log ++ crawlLog fetcher w.cm url depth } := by
  generalize h : depth.toNat = n
  induction n generalizing url depth w with
  | zero =>
    have hd : depth ≤ 0 := by omega
    rw [Crawl]
    simp [hd, crawlLog, crawlRest, h, World.emit, World.Done, wgDelta, Event.delta]
    ring
  | succ n ih =>
    have hd : ¬ depth ≤ 0 := by omega
    have hn : (depth - 1).toNat = n := by omega
    have hc : ((n : Nat) : Int) = depth - 1 := by omega
    rw [Crawl]
    simp only [hd, if_false, crawlLog, h, crawlRest, World.emit]
    by_cases hg : (w.cm.Get url).2 = true
    · simp [hg, World.Done, wgDelta, Event.delta]; ring
    · simp only [hg, if_false]
      cases hf : fetcher url with
      | error err => simp [World.Done, wgDelta, Event.delta]; ring
      | ok r =>
        obtain ⟨body, urls⟩ := r
        simp only []
        rw [foldl_spawn fetcher (depth - 1) (fun u w => ih u (depth - 1) w hn)]
        simp [World.Done, crawlLog, hn, hc, wgDelta_append, wgDelta_cons, Event.delta, wgDelta_nil]
        ring

theorem perm_eraseIdx {α : Type} (l : List α) (i : Nat) (t : α) (h : l[i]? = some t) :
    l.Perm (t :: l.eraseIdx i) := by
  induction l generalizing i with
  | nil => simp at h
  | cons a l ih =>
    cases i with
    | zero => simp at h; subst h; simp
    | succ i =>
      simp at h
      simp only [List.eraseIdx_cons_succ]
      exact ((ih i h).cons a).trans (List.Perm.swap t a _)

theorem perm_shuffle {α : Type} (a b c d : List α) :
    (a ++ (b ++ (c ++ d))).Perm (b ++ ((a ++ d) ++ c)) := by
  rw [← Multiset.coe_eq_coe]
  simp only [← Multiset.coe_add]
  abel

/-- One step of a task has some of the effects of `Task.rest` now and leaves
the others to the task it goes on as and to the tasks it starts. -/
theorem taskStep_rest (fetcher : Fetcher) (cm : CrawlerMap) (t : Task) :
    (Task.rest fetcher cm t).Perm
      ((taskStep fetcher cm t).events ++
        ((taskStep fetcher cm t).cont.toList ++ (taskStep fetcher cm t).spawned).flatMap
          (Task.rest fetcher cm)) := by
  cases t with
  | entry url depth =>
    by_cases hd : depth ≤ 0
    · have h0 : depth.toNat = 0 := by omega
      simp [taskStep, hd, Task.rest, crawlLog, h0, crawlRest]
    · obtain ⟨n, hn⟩ : ∃ n, depth.toNat = n + 1 := ⟨depth.toNat - 1, by omega⟩
      have hn1 : (depth - 1).toNat = n := by omega
      have hc : ((n : Nat) : Int) = depth - 1 := by omega
      by_cases hg : (cm.Get url).2 = true
      · simp [taskStep, hd, hg, Task.rest, crawlLog, hn, crawlRest]
      · cases hf : fetcher url with
        | error err => simp [taskStep, hd, hg, Task.rest, crawlLog, hn, crawlRest, hf]
        | ok r =>
          obtain ⟨body, urls⟩ := r
          simp [taskStep, hd, hg, Task.rest, crawlLog, hn, crawlRest, hf, hn1, hc]
  | range urls depth =>
    cases urls with
    | nil => simp [taskStep, Task.rest]
    | cons u us =>
      simp only [taskStep, Task.rest, List.flatMap_cons, Option.toList, List.singleton_append,
        List.flatMap_nil, List.append_nil, List.cons_append, List.nil_append]
      refine List.Perm.cons _ ?_
      rw [List.append_assoc]
      exact List.perm_append_comm

/-- Every step of a task has at least one effect. -/
theorem taskStep_events_pos (fetcher : Fetcher) (cm : CrawlerMap) (t : Task) :
    1 ≤ (taskStep fetcher cm t).events.length := by
  cases t with
  | entry url depth =>
    simp only [taskStep]
    split
    · simp
    · split
      · simp
      · split <;> simp
  | range urls depth =>
    cases urls <;> simp [taskStep]

/-- What a step of the traversal keeps: the log together with the effects
still to come (up to their order), the registry, and the counter less the
balance of the logged `Add` and `Done` calls; the log grows. -/
theorem step_conserves (fetcher : Fetcher) (s s₁ : State) (c : Option Nat)
    (h : step fetcher s c = some s₁) :
    (s₁.log ++ s₁.pending fetcher).Perm (s.log ++ s.pending fetcher) ∧ s₁.cm = s.cm ∧
      s₁.wg - wgDelta s₁.log = s.wg - wgDelta s.log ∧
      s.log.length + 1 ≤ s₁.log.length ∧ (∃ l, s₁.log = s.log ++ l) := by
  cases c with
  | none =>
    cases hfg : s.fg with
    | none => simp [step, hfg] at h
    | some t =>
      simp only [step, hfg, Option.some.injEq] at h
      subst h
      refine ⟨?_, rfl, ?_, ?_, ⟨_, rfl⟩⟩
      · simp only [State.pending, State.live, hfg, Option.toList, List.singleton_append,
          List.flatMap_cons, List.flatMap_append, List.append_assoc]
        refine List.Perm.append_left _ ?_
        have h1 := taskStep_rest fetcher s.cm t
        simp only [List.flatMap_append] at h1
        refine List.Perm.trans ?_ (h1.symm.append_right _)
        simp only [List.append_assoc]
        refine List.Perm.append_left _ (List.Perm.append_left _ ?_)
        exact List.perm_append_comm
      · simp only [wgDelta_append]; ring
      · have := taskStep_events_pos fetcher s.cm t
        simp only [List.length_append]; omega
  | some i =>
    cases hp : s.pool[i]? with
    | none => simp [step, hp] at h
    | some t =>
      simp only [step, hp, Option.some.injEq] at h
      subst h
      refine ⟨?_, rfl, ?_, ?_, ⟨_, rfl⟩⟩
      · simp only [State.pending, State.live, List.flatMap_append, List.append_assoc]
        refine List.Perm.append_left _ ?_
        have h1 := taskStep_rest fetcher s.cm t
        have h2 := (perm_eraseIdx s.pool i t hp).flatMap_right (Task.rest fetcher s.cm)
        simp only [List.flatMap_cons, List.flatMap_append] at h1 h2
        refine List.Perm.trans ?_ ((h2.symm.append_left _))
        refine List.Perm.trans ?_ ((h1.symm.append_right _).append_left _)
        exact perm_shuffle _ _ _ _
      · simp only [wgDelta_append]; ring
      · have := taskStep_events_pos fetcher s.cm t
        simp only [List.length_append]; omega

/-- The same over a whole schedule. -/
theorem run_conserves (fetcher : Fetcher) (sched : List (Option Nat)) (s s₁ : State)
    (h : run fetcher s sched = some s₁) :
    (s₁.log ++ s₁.pending fetcher).Perm (s.log ++ s.pending fetcher) ∧ s₁.cm = s.cm ∧
      s₁.wg - wgDelta s₁.log = s.wg - wgDelta s.log ∧
      s.log.length + sched.length ≤ s₁.log.length ∧ (∃ l, s₁.log = s.log ++ l) := by
  induction sched generalizing s with
  | nil =>
    simp only [run, Option.some.injEq] at h
    subst h
    exact ⟨List.Perm.refl _, rfl, rfl, by simp, ⟨[], by simp⟩⟩
  | cons c cs ih =>
    simp only [run] at h
    cases hs : step fetcher s c with
    | none => simp [hs] at h
    | some s₂ =>
      simp only [hs, Option.some_bind] at h
      obtain ⟨p1, c1, w1, l1, ⟨m1, e1⟩⟩ := step_conserves fetcher s s₂ c hs
      obtain ⟨p2, c2, w2, l2, ⟨m2, e2⟩⟩ := ih s₂ h
      refine ⟨p2.trans p1, c2.trans c1, w2.trans w1, ?_, ⟨m1 ++ m2, ?_⟩⟩
      · simp only [List.length_cons]; omega
      · rw [e2, e1, List.append_assoc]

/-- At the start everything is still to come. -/
theorem pending_init (fetcher : Fetcher) (cm : CrawlerMap) (wg : Int) (url : String)
    (depth : Int) :
    (State.init cm wg url depth).pending fetcher = crawlLog fetcher cm url depth := by
  simp [State.pending, State.live, State.init, Task.rest]

/-- When no task is left nothing is still to come. -/
theorem pending_final (fetcher : Fetcher) (s : State) (h : s.live = []) :
    s.pending fetcher = [] := by
  simp [State.pending, h]

/-- A run from the start has logged, in some order, a part of `crawlLog`, and
all of it once no task is left. -/
theorem run_init (fetcher : Fetcher) (cm : CrawlerMap) (wg : Int) (url : String)
    (depth : Int) (sched : List (Option Nat)) (s : State)
    (h : run fetcher (State.init cm wg url depth) sched = some s) :
    (s.log ++ s.pending fetcher).Perm (crawlLog fetcher cm url depth) ∧ s.cm = cm ∧
      s.wg = wg + wgDelta s.log ∧ sched.length ≤ s.log.length := by
  obtain ⟨p, c, w, l, _⟩ := run_conserves fetcher sched _ s h
  rw [pending_init] at p
  simp only [State.init, List.nil_append, wgDelta_nil, List.length_nil] at p c w l
  exact ⟨p, c, by omega, by omega⟩

/-- A state with a task left can take a step. -/
theorem step_progress (fetcher : Fetcher) (s : State) :
    s.live = [] ∨ ∃ c s₁, step fetcher s c = some s₁ := by
  cases hfg : s.fg with
  | some t =>
    cases h : step fetcher s none with
    | none => simp [step, hfg] at h
    | some s₁ => exact Or.inr ⟨none, s₁, h⟩
  | none =>
    cases hp : s.pool with
    | nil => exact Or.inl (by simp [State.live, hfg, hp])
    | cons t ts =>
      cases h : step fetcher s (some 0) with
      | none => simp [step, hp] at h
      | some s₁ => exact Or.inr ⟨some 0, s₁, h⟩

/-- Every run can be carried on until no task is left. -/
theorem run_complete (fetcher : Fetcher) (s : State) :
    ∃ rest s₁, run fetcher s rest = some s₁ ∧ s₁.live = [] := by
  generalize hn : (s.pending fetcher).length = n
  induction n using Nat.strong_induction_on generalizing s with
  | _ n ih =>
    rcases step_progress fetcher s with h | ⟨c, s₂, h⟩
    · exact ⟨[], s, rfl, h⟩
    · obtain ⟨p, _, _, l, _⟩ := step_conserves fetcher s s₂ c h
      have hl := p.length_eq
      simp only [List.length_append] at hl
      obtain ⟨rest, s₁, h₁, h₂⟩ := ih (s₂.pending fetcher).length (by omega) s₂ rfl
      exact ⟨c :: rest, s₁, by simp [run, h, h₁], h₂⟩

theorem Crawl_leaf (fetcher : Fetcher) (url : String) (depth : Int) (w : World)
    (h : depth ≤ 0 ∨ (w.cm.Get url).2 = true) :
    Crawl url depth fetcher w =
      { cm := w.cm, wg := w.wg - 1, log := w.log ++ [Event.call url depth, Event.done] } := by
  rw [Crawl]
  by_cases hd : depth ≤ 0
  · simp [hd, World.emit, World.Done]
  · have hg : (w.cm.Get url).2 = true := by tauto
    simp [hd, hg, World.emit, World.Done]

theorem taskStep_leaf (fetcher : Fetcher) (cm : CrawlerMap) (url : String) (depth : Int)
    (h : depth ≤ 0 ∨ (cm.Get url).2 = true) :
    taskStep fetcher cm (Task.entry url depth) =
      ⟨[Event.call url depth, Event.done], none, []⟩ := by
  by_cases hd : depth ≤ 0
  · simp [taskStep, hd]
  · have hg : (cm.Get url).2 = true := by tauto
    simp [taskStep, hd, hg]

theorem lookup_filter_ne (l : List (String × String)) (k k' : String) (h : k' ≠ k) :
    (l.filter (fun p => p.1 != k)).lookup k' = l.lookup k' := by
  induction l with
  | nil => rfl
  | cons p l ih =>
    obtain ⟨a, b⟩ := p
    by_cases ha : a = k
    · subst ha
      have : (k' == a) = false := by simpa using h
      simp [List.filter, List.lookup, this, ih]
    · have hne : (a != k) = true := by simpa using ha
      simp only [List.filter, hne, List.lookup]
      rw [ih]

/-- The invocations of `Crawl` below a task run with a budget that is neither
negative nor as large as the budget of the task. -/
theorem call_mem_crawlRest (fetcher : Fetcher) (cm : CrawlerMap) (n : Nat) (url u : String)
    (k : Int) (h : Event.call u k ∈ crawlRest fetcher cm n url) : 0 ≤ k ∧ k < n := by
  induction n generalizing url with
  | zero => simp [crawlRest] at h
  | succ n ih =>
    simp only [crawlRest] at h
    split at h
    · simp at h
    · split at h
      · simp at h
      · simp only [List.mem_cons, List.mem_append, List.mem_flatMap, List.mem_singleton,
          List.not_mem_nil, or_false, reduceCtorEq, false_or] at h
        obtain ⟨v, _, hv⟩ := h
        rcases hv with hv | hv
        · cases hv
          constructor <;> push_cast <;> omega
        · have := ih v hv
          constructor <;> push_cast <;> omega

theorem call_mem_crawlLog (fetcher : Fetcher) (cm : CrawlerMap) (root u : String) (d k : Int)
    (hd : 0 ≤ d) (h : Event.call u k ∈ crawlLog fetcher cm root d) : 0 ≤ k := by
  simp only [crawlLog, List.mem_cons, Event.call.injEq] at h
  rcases h with ⟨_, h⟩ | h
  · omega
  · exact (call_mem_crawlRest fetcher cm _ _ _ _ h).1

theorem call_mem_rest (fetcher : Fetcher) (cm : CrawlerMap) (t : Task) (u : String) (k : Int)
    (h : t = Task.entry u k) : Event.call u k ∈ Task.rest fetcher cm t := by
  subst h
  simp [Task.rest, crawlLog]

/-! ## The registry (claim C9) -/

/-- C9: after `Set(id, r)`, `Get(id)` returns `(r, true)`; for every `id'`
other than `id`, `Get(id')` returns what it returned before the `Set`; so an
identifier that `Get` found before a `Set` is still found after it. -/
theorem Set_Get (m : CrawlerMap) (id id' r : String) :
    (m.Set id r).Get id = (r, true) ∧
    (id' ≠ id → (m.Set id r).Get id' = m.Get id') ∧
    ((m.Get id').2 = true → ((m.Set id r).Get id').2 = true) := by
  have h1 : (m.Set id r).Get id = (r, true) := by
    simp [CrawlerMap.Set, CrawlerMap.Get, List.lookup]
  have h2 : id' ≠ id → (m.Set id r).Get id' = m.Get id' := by
    intro h
    have hb : (id' == id) = false := by simpa using h
    simp only [CrawlerMap.Set, CrawlerMap.Get, List.lookup, hb]
    rw [lookup_filter_ne _ _ _ h]
  refine ⟨h1, h2, ?_⟩
  intro h
  by_cases he : id' = id
  · subst he; rw [h1]
  · rw [h2 he]; exact h

/-- C9 at a registry that holds "B": a `Set` of "A" is read back and "B" is
still found. -/
theorem Set_Get_witness :
    "B" ≠ "A" ∧ ((CrawlerMap.empty.Set "B" "b").Get "B").2 = true ∧
    (((CrawlerMap.empty.Set "B" "b").Set "A" "a").Get "A" = ("a", true) ∧
     ("B" ≠ "A" → ((CrawlerMap.empty.Set "B" "b").Set "A" "a").Get "B" =
        (CrawlerMap.empty.Set "B" "b").Get "B") ∧
     (((CrawlerMap.empty.Set "B" "b").Get "B").2 = true →
        (((CrawlerMap.empty.Set "B" "b").Set "A" "a").Get "B").2 = true)) :=
  ⟨by decide, by decide, Set_Get (CrawlerMap.empty.Set "B" "b") "A" "B" "a"⟩

/-! ## A task on an identifier that is in the registry (claim C8) -/

/-- C8: when `id` is in the registry, `Crawl(id, depth)` only returns, for
every depth: its effects are its invocation and its `Done`, so no fetch, no
result, no `Add` and no task started, and the registry is the one before. -/
theorem Crawl_already_crawled (fetcher : Fetcher) (id : String) (depth : Int) (w : World)
    (h : (w.cm.Get id).2 = true) :
    Crawl id depth fetcher w =
      { cm := w.cm, wg := w.wg - 1, log := w.log ++ [Event.call id depth, Event.done] } ∧
    taskStep fetcher w.cm (Task.entry id depth) =
      ⟨[Event.call id depth, Event.done], none, []⟩ :=
  ⟨Crawl_leaf fetcher id depth w (Or.inr h), taskStep_leaf fetcher w.cm id depth (Or.inr h)⟩

/-- C8 at the canned fetcher, with the root url in the registry. -/
theorem Crawl_already_crawled_witness :
    ((CrawlerMap.empty.Set "https://golang.org/" "x").Get "https://golang.org/").2 = true ∧
    (Crawl "https://golang.org/" 4 fetcher.Fetch
        ⟨CrawlerMap.empty.Set "https://golang.org/" "x", 1, []⟩ =
      { cm := CrawlerMap.empty.Set "https://golang.org/" "x", wg := 1 - 1,
        log := [] ++ [Event.call "https://golang.org/" 4, Event.done] } ∧
     taskStep fetcher.Fetch (CrawlerMap.empty.Set "https://golang.org/" "x")
        (Task.entry "https://golang.org/" 4) =
      ⟨[Event.call "https://golang.org/" 4, Event.done], none, []⟩) :=
  ⟨by decide,
   Crawl_already_crawled fetcher.Fetch "https://golang.org/" 4
     ⟨CrawlerMap.empty.Set "https://golang.org/" "x", 1, []⟩ (by decide)⟩

/-! ## The registry is never written (claim C5) -/

/-- C5, at the call of `main`: the fetch of the root url succeeds and the url
is not in the registry before, and it is not in the registry after the whole
traversal either, nor in any state of any interleaving, since `Crawl` never
calls `Set` and so leaves the registry as it finds it. -/
theorem main_registers_nothing :
    fetcher.Fetch "https://golang.org/" =
      Except.ok ("The Go Programming Language",
        ["https://golang.org/pkg/", "https://golang.org/cmd/"]) ∧
    (mainWorld.cm.Get "https://golang.org/").2 = false ∧
    main.cm.Get "https://golang.org/" = ("", false) ∧
    (∀ sched s, run fetcher.Fetch mainState sched = some s →
      s.cm.Get "https://golang.org/" = ("", false)) ∧
    (∀ (f : Fetcher) (url : String) (depth : Int) (w : World),
      (Crawl url depth f w).cm = w.cm) := by
  refine ⟨rfl, by decide, ?_, ?_, ?_⟩
  · rw [main, Crawl_eq]; decide
  · intro sched s h
    obtain ⟨_, hc, _, _⟩ := run_init fetcher.Fetch _ _ _ _ sched s h
    rw [hc]; decide
  · intro f url depth w
    rw [Crawl_eq]

/-! ## The depth budget (claims C4 and C2) -/

/-- C4: in a traversal started with a depth `d >= 0`, every invocation of
`Crawl`, logged or still waiting in a goroutine, has a depth `>= 0`, in every
interleaving; a task whose depth is `<= 0` has its invocation and its `Done`
as only effects (no `Fetch`, no result, no `Add`, no task started); and
`Crawl("X", 0)` makes no fetch and one `Done`. -/
theorem depth_bound (fetcher : Fetcher) (cm : CrawlerMap) (wg : Int) (root : String) (d : Int)
    (hd : 0 ≤ d) :
    (∀ u k, Event.call u k ∈ (Crawl root d fetcher ⟨cm, wg, []⟩).log → 0 ≤ k) ∧
    (∀ sched s, run fetcher (State.init cm wg root d) sched = some s →
      ∀ u k, Event.call u k ∈ s.log ∨ Task.entry u k ∈ s.live → 0 ≤ k) ∧
    (∀ u k (w : World), k ≤ 0 →
      Crawl u k fetcher w =
        { cm := w.cm, wg := w.wg - 1, log := w.log ++ [Event.call u k, Event.done] } ∧
      taskStep fetcher w.cm (Task.entry u k) = ⟨[Event.call u k, Event.done], none, []⟩) ∧
    (Crawl "X" 0 fetcher ⟨cm, wg, []⟩).log = [Event.call "X" 0, Event.done] ∧
    (Crawl "X" 0 fetcher ⟨cm, wg, []⟩).log.countP Event.isFetch = 0 ∧
    (Crawl "X" 0 fetcher ⟨cm, wg, []⟩).log.countP Event.isDone = 1 := by
  have hX : (Crawl "X" 0 fetcher ⟨cm, wg, []⟩).log = [Event.call "X" 0, Event.done] := by
    rw [Crawl_leaf fetcher "X" 0 _ (Or.inl (le_refl 0))]
    rfl
  refine ⟨?_, ?_, ?_, hX, ?_, ?_⟩
  · intro u k h
    rw [Crawl_eq] at h
    exact call_mem_crawlLog fetcher cm root u d k hd (by simpa using h)
  · intro sched s hr u k h
    obtain ⟨p, hc, _, _⟩ := run_init fetcher cm wg root d sched s hr
    apply call_mem_crawlLog fetcher cm root u d k hd
    rw [← p.mem_iff, List.mem_append]
    rcases h with h | h
    · exact Or.inl h
    · refine Or.inr ?_
      simp only [State.pending, List.mem_flatMap]
      exact ⟨_, h, call_mem_rest fetcher s.cm _ u k rfl⟩
  · intro u k w hk
    exact ⟨Crawl_leaf fetcher u k w (Or.inl hk), taskStep_leaf fetcher w.cm u k (Or.inl hk)⟩
  · rw [hX]; rfl
  · rw [hX]; rfl

/-- C4 at the traversal of `main`: the task for "https://golang.org/pkg/" is
created with depth 3, and `Crawl("X", 0)` logs its invocation and its `Done`. -/
theorem depth_bound_witness :
    (0 : Int) ≤ 4 ∧
    Event.call "https://golang.org/pkg/" 3 ∈
      (Crawl "https://golang.org/" 4 fetcher.Fetch ⟨CrawlerMap.empty, 0, []⟩).log ∧
    (Crawl "X" 0 fetcher.Fetch ⟨CrawlerMap.empty, 0, []⟩).log =
      [Event.call "X" 0, Event.done] :=
  ⟨by decide, by rw [Crawl_eq]; decide,
   (depth_bound fetcher.Fetch CrawlerMap.empty 0 "https://golang.org/" 4 (by decide)).2.2.2.1⟩

/-- C2: for every fetcher, registry, identifier and integer depth, every
interleaving of the traversal `Crawl(id, depth)` is finite: a run has at most
as many steps as `crawlLog` has effects, whatever the scheduler does, and it
can always be carried on to a state in which every task has returned. The
state-passing `Crawl` is a total function (by recursion on the depth) and
logs `crawlLog`. An iteration of the loop starts its task with `depth - 1`. -/
theorem Crawl_terminates (fetcher : Fetcher) (cm : CrawlerMap) (wg : Int) (url : String)
    (depth : Int) (sched : List (Option Nat)) (s : State)
    (h : run fetcher (State.init cm wg url depth) sched = some s) :
    sched.length ≤ (crawlLog fetcher cm url depth).length ∧
    (∃ rest s₁, run fetcher s rest = some s₁ ∧ s₁.live = []) ∧
    (Crawl url depth fetcher ⟨cm, wg, []⟩).log = crawlLog fetcher cm url depth ∧
    (∀ u us k, (taskStep fetcher cm (Task.range (u :: us) k)).spawned =
      [Task.entry u (k - 1)]) := by
  obtain ⟨p, _, _, l⟩ := run_init fetcher cm wg url depth sched s h
  have hl := p.length_eq
  simp only [List.length_append] at hl
  refine ⟨by omega, run_complete fetcher s, ?_, ?_⟩
  · rw [Crawl_eq]; rfl
  · intro u us k; rfl

/-- C2 at the traversal of `main`, after the first step of the root task. -/
theorem Crawl_terminates_witness :
    run fetcher.Fetch (State.init CrawlerMap.empty 0 "https://golang.org/" 4) [none] =
      some { cm := CrawlerMap.empty, wg := 0,
             fg := some (Task.range ["https://golang.org/pkg/", "https://golang.org/cmd/"] 4),
             pool := [],
             log := [Event.call "https://golang.org/" 4, Event.fetch "https://golang.org/",
                     Event.found "https://golang.org/" "The Go Programming Language"] } ∧
    [(none : Option Nat)].length ≤
      (crawlLog fetcher.Fetch CrawlerMap.empty "https://golang.org/" 4).length :=
  ⟨by decide,
   (Crawl_terminates fetcher.Fetch CrawlerMap.empty 0 "https://golang.org/" 4 [none] _
     rfl).1⟩

/-! ## The barrier (claim C1) -/

/-- The balance of the `WaitGroup` calls of one step of a task: one `Add(1)`
for each task it starts, one `Done` when it returns. -/
theorem taskStep_delta (fetcher : Fetcher) (cm : CrawlerMap) (t : Task) :
    wgDelta (taskStep fetcher cm t).events =
      ((taskStep fetcher cm t).spawned.length : Int) -
        (if (taskStep fetcher cm t).cont.isNone then 1 else 0) ∧
    (taskStep fetcher cm t).cont.toList.length =
      (if (taskStep fetcher cm t).cont.isNone then 0 else 1) := by
  cases t with
  | entry url depth =>
    simp only [taskStep]
    split
    · simp [wgDelta, Event.delta]
    · split
      · simp [wgDelta, Event.delta]
      · split <;> simp [wgDelta, Event.delta]
  | range urls depth =>
    cases urls <;> simp [taskStep, wgDelta, Event.delta]

/-- Over a whole traversal the `Add` calls and the `Done` calls balance but
for the `Done` of the root task. -/
theorem wgDelta_crawlRest (fetcher : Fetcher) (cm : CrawlerMap) (n : Nat) (url : String) :
    wgDelta (crawlRest fetcher cm n url) = -1 := by
  induction n generalizing url with
  | zero => simp [crawlRest, wgDelta, Event.delta]
  | succ n ih =>
    simp only [crawlRest]
    split
    · simp [wgDelta, Event.delta]
    · split
      · simp [wgDelta, Event.delta]
      · rename_i body urls _
        have hz : ∀ us : List String, wgDelta (us.flatMap (fun u =>
            Event.add 1 :: Event.call u (n : Int) :: crawlRest fetcher cm n u)) = 0 := by
          intro us
          induction us with
          | nil => rfl
          | cons u us ihu =>
            simp only [List.flatMap_cons, wgDelta_append, wgDelta_cons, ih, ihu, Event.delta]
            ring
        simp only [wgDelta_cons, wgDelta_append, hz, Event.delta, wgDelta_nil]
        ring

theorem wgDelta_crawlLog (fetcher : Fetcher) (cm : CrawlerMap) (url : String) (depth : Int) :
    wgDelta (crawlLog fetcher cm url depth) = -1 := by
  simp only [crawlLog, wgDelta_cons, wgDelta_crawlRest, Event.delta]
  ring

/-- The counter of the barrier, less the number of goroutines that have not
returned, plus one once the call of the caller has returned, is kept by every
step. -/
theorem step_balance (fetcher : Fetcher) (s s₁ : State) (c : Option Nat)
    (h : step fetcher s c = some s₁) :
    s₁.wg - s₁.pool.length + (if s₁.fg.isNone then 1 else 0) =
      s.wg - s.pool.length + (if s.fg.isNone then 1 else 0) := by
  cases c with
  | none =>
    cases hfg : s.fg with
    | none => simp [step, hfg] at h
    | some t =>
      simp only [step, hfg, Option.some.injEq] at h
      subst h
      obtain ⟨h1, _⟩ := taskStep_delta fetcher s.cm t
      simp only [h1, List.length_append, Option.isNone_some]
      push_cast
      split <;> (simp; try ring)
  | some i =>
    cases hp : s.pool[i]? with
    | none => simp [step, hp] at h
    | some t =>
      simp only [step, hp, Option.some.injEq] at h
      subst h
      obtain ⟨h1, h2⟩ := taskStep_delta fetcher s.cm t
      have hi : i < s.pool.length := by
        obtain ⟨hi, _⟩ := List.getElem?_eq_some.mp hp
        exact hi
      have hlen : (s.pool.eraseIdx i).length = s.pool.length - 1 := by
        rw [List.length_eraseIdx]; simp [hi]
      simp only [h1, List.length_append, hlen, h2]
      push_cast
      rw [Nat.cast_sub (by omega)]
      split <;> simp <;> ring

/-- In every state that a traversal started with the counter at `wg` reaches,
the counter is `wg` plus the number of goroutines that have not returned,
less one once the call of the caller has returned. -/
theorem run_balance (fetcher : Fetcher) (cm : CrawlerMap) (wg : Int) (url : String)
    (depth : Int) (sched : List (Option Nat)) (s : State)
    (h : run fetcher (State.init cm wg url depth) sched = some s) :
    s.wg = wg + s.pool.length - (if s.fg.isNone then 1 else 0) := by
  have key : ∀ (sched : List (Option Nat)) (s₀ s : State), run fetcher s₀ sched = some s →
      s.wg - s.pool.length + (if s.fg.isNone then 1 else 0) =
        s₀.wg - s₀.pool.length + (if s₀.fg.isNone then 1 else 0) := by
    intro sched
    induction sched with
    | nil =>
      intro s₀ s h
      simp only [run, Option.some.injEq] at h
      subst h; rfl
    | cons c cs ih =>
      intro s₀ s h
      simp only [run] at h
      cases hs : step fetcher s₀ c with
      | none => simp [hs] at h
      | some s₂ =>
        simp only [hs, Option.some_bind] at h
        rw [ih s₂ s h, step_balance fetcher s₀ s₂ c hs]
  have hk := key sched _ s h
  simp only [State.init, List.length_nil, Option.isNone_some] at hk
  cases hfg : s.fg with
  | none =>
    simp only [hfg, Option.isNone_none, if_true] at hk
    simp only [Option.isNone_none, if_true]
    push_cast at hk
    omega
  | some t =>
    simp only [hfg, Option.isNone_some] at hk
    simp only [Option.isNone_some]
    push_cast at hk
    simp at hk ⊢
    omega

/-- C1, at the traversal of `main`: the counter starts at 0 with the root task
running and `main` calls no `Add` for it, so that after the `Done` of the root
task the counter is one less than the number of tasks that have not returned.
A state is reached in which `wg.Wait()` returns while the task for
"https://golang.org/pkg/" has not run; whenever `Wait` can return, one started
task has not called `Done`; and when every task has returned the counter is
-1, for which Go panics. Had the caller called `wg.Add(1)` before its call of
`Crawl`, the counter would be `>= 0` in every state and 0 only with no task
left. -/
theorem main_barrier_violated :
    (∃ s, run fetcher.Fetch mainState [none, none, none, none, some 1] = some s ∧
      s.waitReturns = true ∧ s.wg = 0 ∧ s.pool = [Task.entry "https://golang.org/pkg/" 3]) ∧
    (∀ sched s, run fetcher.Fetch mainState sched = some s → s.waitReturns = true →
      s.pool.length = 1) ∧
    (∀ sched s, run fetcher.Fetch mainState sched = some s → s.live = [] → s.wg = -1) ∧
    main.wg = -1 ∧
    (∀ (f : Fetcher) (cm : CrawlerMap) (url : String) (depth : Int) sched s,
      run f (State.init cm 1 url depth) sched = some s →
      0 ≤ s.wg ∧ (s.wg = 0 → s.live = [])) := by
  refine ⟨⟨_, rfl, by decide, by decide, by decide⟩, ?_, ?_, ?_, ?_⟩
  · intro sched s h hw
    have hb := run_balance fetcher.Fetch _ _ _ _ sched s h
    simp only [State.waitReturns, Bool.and_eq_true, decide_eq_true_eq] at hw
    simp only [hw.1, if_true] at hb
    omega
  · intro sched s h hl
    have hb := run_balance fetcher.Fetch _ _ _ _ sched s h
    cases hfg : s.fg with
    | some t => simp [State.live, hfg] at hl
    | none =>
      simp only [State.live, hfg, Option.toList, List.nil_append] at hl
      simp only [hfg, hl, Option.isNone_none, if_true, List.length_nil] at hb
      simpa using hb
  · rw [main, Crawl_eq, wgDelta_crawlLog]; rfl
  · intro f cm url depth sched s h
    have hb := run_balance f cm 1 url depth sched s h
    cases hfg : s.fg with
    | some t =>
      simp only [hfg, Option.isNone_some] at hb
      simp at hb
      constructor
      · omega
      · intro h0; omega
    | none =>
      simp only [hfg, Option.isNone_none, if_true] at hb
      constructor
      · omega
      · intro h0
        have hp : s.pool.length = 0 := by omega
        simp [State.live, hfg, List.length_eq_zero.mp hp]

/-! ## The number of tasks (claim C3) -/

theorem geom_succ (b n : Nat) :
    ∑ i ∈ Finset.range (n + 2), b ^ i = 1 + b * ∑ i ∈ Finset.range (n + 1), b ^ i := by
  rw [Finset.sum_range_succ', Finset.mul_sum]
  simp only [pow_succ, pow_zero]
  rw [add_comm]
  congr 1
  apply Finset.sum_congr rfl
  intro i _
  ring

/-- When no page has more than `b` links, a task with budget `n` and the tasks
below it are at most `1 + b + ... + b ^ n`. -/
theorem calls_crawlRest (fetcher : Fetcher) (cm : CrawlerMap) (b : Nat)
    (hb : ∀ u body urls, fetcher u = Except.ok (body, urls) → urls.length ≤ b)
    (n : Nat) (url : String) :
    (crawlRest fetcher cm n url).countP Event.isCall + 1 ≤
      ∑ i ∈ Finset.range (n + 1), b ^ i := by
  induction n generalizing url with
  | zero => simp [crawlRest, Event.isCall]
  | succ n ih =>
    rw [geom_succ]
    simp only [crawlRest]
    split
    · simp [Event.isCall]
    · split
      · simp [Event.isCall]
      · rename_i body urls hf
        have hz : ∀ us : List String, (us.flatMap (fun u =>
            Event.add 1 :: Event.call u (n : Int) :: crawlRest fetcher cm n u)).countP
              Event.isCall ≤ us.length * ∑ i ∈ Finset.range (n + 1), b ^ i := by
          intro us
          induction us with
          | nil => simp
          | cons u us ihu =>
            have := ih u
            simp only [List.flatMap_cons, List.countP_append, List.countP_cons, Event.isCall,
              List.length_cons, Nat.succ_mul] at *
            simp only [if_true, Bool.false_eq_true, if_false]
            omega
        have h1 := hz urls
        have h2 : urls.length * ∑ i ∈ Finset.range (n + 1), b ^ i ≤
            b * ∑ i ∈ Finset.range (n + 1), b ^ i :=
          Nat.mul_le_mul_right _ (hb url body urls hf)
        simp only [List.countP_cons, List.countP_append, Event.isCall, List.countP_nil]
        simp only [Bool.false_eq_true, if_false]
        omega

theorem calls_crawlLog (fetcher : Fetcher) (cm : CrawlerMap) (b : Nat)
    (hb : ∀ u body urls, fetcher u = Except.ok (body, urls) → urls.length ≤ b)
    (url : String) (depth : Int) :
    (crawlLog fetcher cm url depth).countP Event.isCall ≤
      ∑ i ∈ Finset.range (depth.toNat + 1), b ^ i := by
  have := calls_crawlRest fetcher cm b hb depth.toNat url
  simp only [crawlLog, List.countP_cons, Event.isCall, if_true]
  omega

/-- No page of the fetcher of the scenario has more than two links. -/
theorem abcFetcher_links (a b c u body : String) (urls : List String)
    (h : (abcFetcher a b c).Fetch u = Except.ok (body, urls)) : urls.length ≤ 2 := by
  simp only [fakeFetcher.Fetch, abcFetcher, List.lookup] at h
  split at h
  · rename_i res hl
    simp only [Except.ok.injEq, Prod.mk.injEq] at h
    split at hl
    · cases hl; rw [← h.2]; simp
    · split at hl
      · cases hl; rw [← h.2]; simp
      · split at hl
        · cases hl; rw [← h.2]; simp
        · cases hl
  · cases h

/-- C3 as stated fails: with the fetcher `A -> [B, C]`, `B -> [A]`, `C -> []`
no page has more than 2 links, and `Crawl("A", 1)` creates 3 tasks, the root
and one for each link of the root, more than `2 ^ 1`. -/
theorem task_count_exceeds_power :
    (∀ u body urls, (abcFetcher "a" "b" "c").Fetch u = Except.ok (body, urls) →
      urls.length ≤ 2) ∧
    (Crawl "A" 1 (abcFetcher "a" "b" "c").Fetch ⟨CrawlerMap.empty, 0, []⟩).log.countP
      Event.isCall = 3 ∧
    ¬ ((Crawl "A" 1 (abcFetcher "a" "b" "c").Fetch ⟨CrawlerMap.empty, 0, []⟩).log.countP
      Event.isCall ≤ 2 ^ 1) := by
  have h : (Crawl "A" 1 (abcFetcher "a" "b" "c").Fetch ⟨CrawlerMap.empty, 0, []⟩).log.countP
      Event.isCall = 3 := by
    rw [Crawl_eq]; decide
  refine ⟨abcFetcher_links "a" "b" "c", h, ?_⟩
  rw [h]; decide

/-- C3, amended: when every link list the fetcher returns has at most
`branchingFactor` elements, the traversal `Crawl(root, d)` with `d >= 0`
creates at most `1 + branchingFactor + ... + branchingFactor ^ d` tasks, the
root included, in the state-passing `Crawl` and in every interleaving. -/
theorem task_count_le (fetcher : Fetcher) (branchingFactor : Nat)
    (hb : ∀ u body urls, fetcher u = Except.ok (body, urls) → urls.length ≤ branchingFactor)
    (cm : CrawlerMap) (wg : Int) (root : String) (d : Nat) :
    (Crawl root (d : Int) fetcher ⟨cm, wg, []⟩).log.countP Event.isCall ≤
      ∑ i ∈ Finset.range (d + 1), branchingFactor ^ i ∧
    (∀ sched s, run fetcher (State.init cm wg root (d : Int)) sched = some s →
      s.log.countP Event.isCall ≤ ∑ i ∈ Finset.range (d + 1), branchingFactor ^ i) := by
  have hc := calls_crawlLog fetcher cm branchingFactor hb root (d : Int)
  rw [Int.toNat_natCast] at hc
  constructor
  · rw [Crawl_eq]; simpa using hc
  · intro sched s h
    obtain ⟨p, _, _, _⟩ := run_init fetcher cm wg root (d : Int) sched s h
    have := p.countP_eq Event.isCall
    simp only [List.countP_append] at this
    omega

/-- The amended C3 at the scenario fetcher with depth 1: 3 tasks, and
`1 + 2 = 3`. -/
theorem task_count_le_witness :
    (∀ u body urls, (abcFetcher "a" "b" "c").Fetch u = Except.ok (body, urls) →
      urls.length ≤ 2) ∧
    (Crawl "A" ((1 : Nat) : Int) (abcFetcher "a" "b" "c").Fetch
      ⟨CrawlerMap.empty, 0, []⟩).log.countP Event.isCall ≤
        ∑ i ∈ Finset.range (1 + 1), 2 ^ i :=
  ⟨abcFetcher_links "a" "b" "c",
   (task_count_le (abcFetcher "a" "b" "c").Fetch 2 (abcFetcher_links "a" "b" "c")
     CrawlerMap.empty 0 "A" 1).1⟩

/-! ## At-least-once delivery (claim C6) -/

/-- The effects of a task started for a link of a fetched page are among the
effects below the task of the page. -/
theorem crawlRest_child (fetcher : Fetcher) (cm : CrawlerMap) (n : Nat)
    (v id body : String) (urls : List String)
    (hv : fetcher v = Except.ok (body, urls)) (hg : (cm.Get v).2 = false) (hid : id ∈ urls)
    (e : Event) (he : e ∈ crawlRest fetcher cm n id) : e ∈ crawlRest fetcher cm (n + 1) v := by
  simp only [crawlRest, hg, hv, Bool.false_eq_true, if_false, List.mem_cons, List.mem_append,
    List.mem_flatMap]
  exact Or.inr (Or.inr (Or.inl ⟨id, hid, Or.inr (Or.inr he)⟩))

/-- With an empty registry, the task at the end of a path of `k` links runs
with the budget of the root less `k`, and its effects are among the effects
of the traversal. -/
theorem crawlRest_path (fetcher : Fetcher) (root : String) (D k : Nat) (id : String)
    (hp : Path fetcher root k id) (hk : k ≤ D) (e : Event)
    (he : e ∈ crawlRest fetcher CrawlerMap.empty (D - k) id) :
    e ∈ crawlRest fetcher CrawlerMap.empty D root := by
  induction hp generalizing e with
  | here => simpa using he
  | link hp hv hid ih =>
    rename_i k v id body urls
    apply ih (by omega)
    have hD : D - k = (D - (k + 1)) + 1 := by omega
    rw [hD]
    exact crawlRest_child fetcher CrawlerMap.empty _ v id body urls hv rfl hid e he

/-- C6: with an empty registry and a root crawled with budget `d >= 1`, every
identifier at the end of a path of `k <= d - 1` links from the root (each node
before it fetched with success and listing the next) whose own fetch succeeds
with content `body` is given to the result sink: `found id body` is in the log
of `Crawl`, and in the log of every interleaving once every task has
returned. -/
theorem at_least_once (fetcher : Fetcher) (wg : Int) (root : String) (d : Int) (k : Nat)
    (id body : String) (urls : List String)
    (hd : 1 ≤ d) (hp : Path fetcher root k id) (hk : (k : Int) ≤ d - 1)
    (hf : fetcher id = Except.ok (body, urls)) :
    Event.found id body ∈ (Crawl root d fetcher ⟨CrawlerMap.empty, wg, []⟩).log ∧
    (∀ sched s, run fetcher (State.init CrawlerMap.empty wg root d) sched = some s →
      s.live = [] → Event.found id body ∈ s.log) := by
  have hmem : Event.found id body ∈ crawlLog fetcher CrawlerMap.empty root d := by
    have hkD : k ≤ d.toNat := by omega
    obtain ⟨n, hn⟩ : ∃ n, d.toNat - k = n + 1 := ⟨d.toNat - k - 1, by omega⟩
    have h1 : Event.found id body ∈ crawlRest fetcher CrawlerMap.empty (d.toNat - k) id := by
      rw [hn]
      have hg : (CrawlerMap.empty.Get id).2 = false := rfl
      simp [crawlRest, hg, hf]
    simp only [crawlLog, List.mem_cons]
    exact Or.inr (crawlRest_path fetcher root d.toNat k id hp hkD _ h1)
  constructor
  · rw [Crawl_eq]; simpa using hmem
  · intro sched s h hl
    obtain ⟨p, _, _, _⟩ := run_init fetcher CrawlerMap.empty wg root d sched s h
    rw [pending_final fetcher s hl, List.append_nil] at p
    exact p.mem_iff.mpr hmem

/-- C6 at the traversal of `main`: "https://golang.org/pkg/fmt/" is two links
from the root. -/
theorem at_least_once_witness :
    (1 : Int) ≤ 4 ∧
    Path fetcher.Fetch "https://golang.org/" 2 "https://golang.org/pkg/fmt/" ∧
    ((2 : Nat) : Int) ≤ 4 - 1 ∧
    fetcher.Fetch "https://golang.org/pkg/fmt/" =
      Except.ok ("Package fmt", ["https://golang.org/", "https://golang.org/pkg/"]) ∧
    Event.found "https://golang.org/pkg/fmt/" "Package fmt" ∈
      (Crawl "https://golang.org/" 4 fetcher.Fetch ⟨CrawlerMap.empty, 0, []⟩).log :=
  have h1 : Path fetcher.Fetch "https://golang.org/" 1 "https://golang.org/pkg/" :=
    @Path.link fetcher.Fetch "https://golang.org/" 0 "https://golang.org/"
      "https://golang.org/pkg/" "The Go Programming Language"
      ["https://golang.org/pkg/", "https://golang.org/cmd/"] Path.here rfl (by decide)
  have hp : Path fetcher.Fetch "https://golang.org/" 2 "https://golang.org/pkg/fmt/" :=
    @Path.link fetcher.Fetch "https://golang.org/" 1 "https://golang.org/pkg/"
      "https://golang.org/pkg/fmt/" "Packages"
      ["https://golang.org/", "https://golang.org/cmd/", "https://golang.org/pkg/fmt/",
        "https://golang.org/pkg/os/"] h1 rfl (by decide)
  ⟨by decide, hp, by decide, rfl,
   (at_least_once fetcher.Fetch 0 "https://golang.org/" 4 2 "https://golang.org/pkg/fmt/"
     "Package fmt" ["https://golang.org/", "https://golang.org/pkg/"]
     (by decide) hp (by decide) rfl).1⟩

/-! ## Failure isolation (claim C7) -/

theorem Crawl_fail (fetcher : Fetcher) (w : World) (url err : String) (depth : Int)
    (hf : fetcher url = Except.error err) (hd : 0 < depth) (hg : (w.cm.Get url).2 = false) :
    Crawl url depth fetcher w =
      { cm := w.cm, wg := w.wg - 1,
        log := w.log ++ [Event.call url depth, Event.fetch url, Event.println err,
          Event.done] } := by
  have hd0 : ¬ depth ≤ 0 := by omega
  rw [Crawl]
  simp [hd0, hg, hf, World.emit, World.Done]

theorem found_mem_child (fetcher : Fetcher) (cm : CrawlerMap) (P bP : String)
    (urls : List String) (Y bY : String) (urlsY : List String) (dP : Int)
    (hP : fetcher P = Except.ok (bP, urls)) (hY : Y ∈ urls)
    (hfY : fetcher Y = Except.ok (bY, urlsY))
    (hgP : (cm.Get P).2 = false) (hgY : (cm.Get Y).2 = false) (hd : 1 < dP) :
    Event.found Y bY ∈ crawlLog fetcher cm P dP := by
  obtain ⟨n, hn⟩ : ∃ n, dP.toNat = n + 1 + 1 := ⟨dP.toNat - 2, by omega⟩
  have h1 : Event.found Y bY ∈ crawlRest fetcher cm (n + 1) Y := by
    simp [crawlRest, hgY, hfY]
  simp only [crawlLog, hn, List.mem_cons]
  exact Or.inr (crawlRest_child fetcher cm (n + 1) P Y bP urls hP hgP hY _ h1)

/-- C7: a task whose fetch of `X` fails prints the error and returns: no
result for `X`, no `Add`, no task started. Each step of every other task is
the same under every fetcher that differs only at `X`, so the task for a
sibling `Y` does what it would do had the fetch of `X` not failed. And for a
parent `P` whose links hold `X` and `Y`, crawled with a budget above 1 and
neither in the registry, the result of a `Y` whose fetch succeeds is emitted,
in `Crawl` and in every interleaving. -/
theorem fetch_failure_isolated (fetcher : Fetcher) (w : World) (X err : String) (depth : Int)
    (hX : fetcher X = Except.error err) (hd : 0 < depth) (hg : (w.cm.Get X).2 = false) :
    Crawl X depth fetcher w =
      { cm := w.cm, wg := w.wg - 1,
        log := w.log ++ [Event.call X depth, Event.fetch X, Event.println err,
          Event.done] } ∧
    taskStep fetcher w.cm (Task.entry X depth) =
      ⟨[Event.call X depth, Event.fetch X, Event.println err, Event.done], none, []⟩ ∧
    (∀ (g : Fetcher), (∀ u, u ≠ X → g u = fetcher u) →
      (∀ Y k, Y ≠ X →
        taskStep g w.cm (Task.entry Y k) = taskStep fetcher w.cm (Task.entry Y k)) ∧
      (∀ us k, taskStep g w.cm (Task.range us k) = taskStep fetcher w.cm (Task.range us k))) ∧
    (∀ (P bP : String) (urls : List String) (Y bY : String) (urlsY : List String) (dP : Int),
      fetcher P = Except.ok (bP, urls) → X ∈ urls → Y ∈ urls →
      fetcher Y = Except.ok (bY, urlsY) →
      (w.cm.Get P).2 = false → (w.cm.Get Y).2 = false → 1 < dP →
      Event.found Y bY ∈ (Crawl P dP fetcher w).log ∧
      (∀ sched s, run fetcher (State.init w.cm w.wg P dP) sched = some s → s.live = [] →
        Event.found Y bY ∈ s.log)) := by
  have hd0 : ¬ depth ≤ 0 := by omega
  refine ⟨Crawl_fail fetcher w X err depth hX hd hg, ?_, ?_, ?_⟩
  · simp [taskStep, hd0, hg, hX]
  · intro g hgf
    constructor
    · intro Y k hY
      simp only [taskStep, hgf Y hY]
    · intro us k
      cases us <;> rfl
  · intro P bP urls Y bY urlsY dP hP _ hY hfY hgP hgY hdP
    have hmem := found_mem_child fetcher w.cm P bP urls Y bY urlsY dP hP hY hfY hgP hgY hdP
    constructor
    · rw [Crawl_eq]
      exact List.mem_append_right _ hmem
    · intro sched s h hl
      obtain ⟨p, _, _, _⟩ := run_init fetcher w.cm w.wg P dP sched s h
      rw [pending_final fetcher s hl, List.append_nil] at p
      exact p.mem_iff.mpr hmem

/-- C7 at the canned fetcher: the fetch of "https://golang.org/cmd/" fails,
and the result of its sibling "https://golang.org/pkg/" is emitted by the
traversal of `main`. -/
theorem fetch_failure_isolated_witness :
    fetcher.Fetch "https://golang.org/cmd/" =
      Except.error "not found: https://golang.org/cmd/" ∧
    (0 : Int) < 3 ∧
    (mainWorld.cm.Get "https://golang.org/cmd/").2 = false ∧
    Crawl "https://golang.org/cmd/" 3 fetcher.Fetch mainWorld =
      { cm := mainWorld.cm, wg := mainWorld.wg - 1,
        log := mainWorld.log ++ [Event.call "https://golang.org/cmd/" 3,
          Event.fetch "https://golang.org/cmd/",
          Event.println "not found: https://golang.org/cmd/", Event.done] } ∧
    Event.found "https://golang.org/pkg/" "Packages" ∈
      (Crawl "https://golang.org/" 4 fetcher.Fetch mainWorld).log :=
  have h := fetch_failure_isolated fetcher.Fetch mainWorld "https://golang.org/cmd/"
    "not found: https://golang.org/cmd/" 3 rfl (by decide) rfl
  ⟨rfl, by decide, rfl, h.1,
   (h.2.2.2 "https://golang.org/" "The Go Programming Language"
      ["https://golang.org/pkg/", "https://golang.org/cmd/"]
      "https://golang.org/pkg/" "Packages"
      ["https://golang.org/", "https://golang.org/cmd/", "https://golang.org/pkg/fmt/",
        "https://golang.org/pkg/os/"] 4
      rfl (by decide) (by decide) rfl rfl rfl (by decide)).1⟩

/-! ## The scenario `A -> [B, C]`, `B -> [A]`, `C -> []` (claim C10) -/

/-- The log of `Crawl("A", 2)` in the scenario. -/
theorem crawlLog_abc (a b c : String) :
    crawlLog (abcFetcher a b c).Fetch CrawlerMap.empty "A" 2 =
      [Event.call "A" 2, Event.fetch "A", Event.found "A" a,
       Event.add 1, Event.call "B" 1, Event.fetch "B", Event.found "B" b,
       Event.add 1, Event.call "A" 0, Event.done, Event.done,
       Event.add 1, Event.call "C" 1, Event.fetch "C", Event.found "C" c, Event.done,
       Event.done] := rfl

/-- C10: for root "A", depth 2, an empty registry and the fetcher `A -> [B, C]`,
`B -> [A]`, `C -> []` (any three bodies), the fetches are those of "A", "B"
and "C", once each, and the results are the three of "A", "B" and "C": so in
the state-passing `Crawl`, whose log is given in full, and in every
interleaving once every task has returned. The task that the discovery of "A"
by "B" starts runs with depth 0 and returns at the depth check. -/
theorem scenario_abc (a b c : String) (wg : Int) :
    (Crawl "A" 2 (abcFetcher a b c).Fetch ⟨CrawlerMap.empty, wg, []⟩).log =
      [Event.call "A" 2, Event.fetch "A", Event.found "A" a,
       Event.add 1, Event.call "B" 1, Event.fetch "B", Event.found "B" b,
       Event.add 1, Event.call "A" 0, Event.done, Event.done,
       Event.add 1, Event.call "C" 1, Event.fetch "C", Event.found "C" c, Event.done,
       Event.done] ∧
    (∀ sched s,
      run (abcFetcher a b c).Fetch (State.init CrawlerMap.empty wg "A" 2) sched = some s →
      s.live = [] →
      (s.log.filter Event.isFetch).Perm [Event.fetch "A", Event.fetch "B", Event.fetch "C"] ∧
      (s.log.filter Event.isFound).Perm
        [Event.found "A" a, Event.found "B" b, Event.found "C" c] ∧
      s.log.countP Event.isFetch = 3 ∧ s.log.countP Event.isFound = 3 ∧
      (s.log.filter Event.isCall).Perm
        [Event.call "A" 2, Event.call "B" 1, Event.call "A" 0, Event.call "C" 1]) ∧
    taskStep (abcFetcher a b c).Fetch CrawlerMap.empty (Task.entry "A" 0) =
      ⟨[Event.call "A" 0, Event.done], none, []⟩ := by
  refine ⟨?_, ?_, rfl⟩
  · rw [Crawl_eq, crawlLog_abc]; rfl
  · intro sched s h hl
    obtain ⟨p, _, _, _⟩ := run_init _ CrawlerMap.empty wg "A" 2 sched s h
    rw [pending_final _ s hl, List.append_nil, crawlLog_abc] at p
    have h1 := p.filter Event.isFetch
    have h2 := p.filter Event.isFound
    have h3 := p.filter Event.isCall
    have c1 := p.countP_eq Event.isFetch
    have c2 := p.countP_eq Event.isFound
    exact ⟨h1, h2, c1, c2, h3⟩

/-- C10 on an interleaving in which the task for "B" and the task it starts
run before the root task starts the task for "C": the log of the final state
has the three results. -/
theorem scenario_abc_witness :
    (∃ s, run (abcFetcher "a" "b" "c").Fetch (State.init CrawlerMap.empty 1 "A" 2)
        [none, none, some 0, some 0, some 0, some 0, none, some 0, some 0, none] = some s ∧
      s.live = [] ∧
      (s.log.filter Event.isFound).Perm
        [Event.found "A" "a", Event.found "B" "b", Event.found "C" "c"]) :=
  ⟨_, rfl, by decide,
   ((scenario_abc "a" "b" "c" 1).2.1
     [none, none, some 0, some 0, some 0, some 0, none, some 0, some 0, none] _ rfl (by decide)).2.1⟩

end WebCrawler
